import Mathlib

/-!
A verification development for the rsnode L1-to-L2 derivation pipeline and its
Merkle Patricia Trie.  The Rust sources (src/main.rs, crates/mpt/src/lib.rs) are
shallowly embedded: machine integers become Nat (overflow is noted where it could
matter), HashMap becomes an association list keyed by Nat, VecDeque becomes List,
and panicking paths become Except.error carrying the panic message.
-/

namespace RsNode

/-! ## Association lists (embedding of std::collections::HashMap with Nat keys)

Only key-based lookup, insert, update and removal are used by the source, so the
iteration order of the map never matters except for `values().sum()`, which is
order-independent. -/

def alookup {α : Type} : List (Nat × α) → Nat → Option α
  | [], _ => none
  | (k, v) :: rest, key => if k = key then some v else alookup rest key

def acontains {α : Type} (m : List (Nat × α)) (key : Nat) : Bool :=
  (alookup m key).isSome

def aupdate {α : Type} : List (Nat × α) → Nat → (α → α) → List (Nat × α)
  | [], _, _ => []
  | (k, w) :: rest, key, f => if k = key then (k, f w) :: rest else (k, w) :: aupdate rest key f

def aerase {α : Type} : List (Nat × α) → Nat → List (Nat × α)
  | [], _ => []
  | (k, w) :: rest, key => if k = key then rest else (k, w) :: aerase rest key

/-- HashMap::insert (replace an existing binding, else append). -/
def ainsert {α : Type} : List (Nat × α) → Nat → α → List (Nat × α)
  | [], key, v => [(key, v)]
  | (k, w) :: rest, key, v => if k = key then (key, v) :: rest else (k, w) :: ainsert rest key v

/-! ## Block references and frames (src/main.rs together with the types module)

BlockID, L1BlockRef, L2BlockRef and Frame are declared in the types module, which
is not part of the sources here; their fields and ordering are taken from the
spec (section 3). H128/H256 hashes are embedded as Nat. -/

/-- Modelled from the spec: BlockID (types module, absent from src/): a 32-byte
hash plus a u64 number, "totally ordered by number" (section 3). -/
structure BlockID where
  hash : Nat
  number : Nat
deriving DecidableEq

/-- Modelled from the spec: the std::cmp::max used by Channel::load_frame on
BlockID, with the ordering by number from section 3 (std::cmp::max returns the
second argument when equal). -/
def BlockID.maxBy (a b : BlockID) : BlockID :=
  if b.number < a.number then a else b

/-- Modelled from the spec: L1BlockRef (types module, absent from src/):
BlockID plus parent_hash and time (section 3). -/
structure L1BlockRef where
  hash : Nat
  number : Nat
  parentHash : Nat
  time : Nat
deriving DecidableEq

/-- Modelled from the spec: the From conversion L1BlockRef -> BlockID used by
load_l1_data (the l1_block.into() call). -/
def L1BlockRef.toBlockID (b : L1BlockRef) : BlockID :=
  { hash := b.hash, number := b.number }

/-- Modelled from the spec: L2BlockRef (types module, absent from src/):
BlockID plus time (section 3). -/
structure L2BlockRef where
  hash : Nat
  number : Nat
  time : Nat
deriving DecidableEq

/-- Modelled from the spec: Frame (types module, absent from src/): channel_id
(16 bytes, as a Nat), a u16 number, data bytes and the is_last flag
(sections 3 and 4.1). -/
structure Frame where
  id : Nat
  number : Nat
  data : List Nat
  isLast : Bool
deriving DecidableEq

/-- Modelled from the spec: Frame::size (types module, absent from src/);
section 4.2 specifies the size accounting as frame.data.len(). -/
def Frame.size (f : Frame) : Nat :=
  f.data.length

/-! ## Channel (src/main.rs lines 31-112) -/

structure Channel where
  frames : List (Nat × Frame)
  id : Nat
  size : Nat
  highestFrameNumber : Nat
  endFrameNumber : Option Nat
  lowestL1Block : BlockID
  highestL1Block : BlockID
deriving DecidableEq

def MAX_CHANNEL_BANK_SIZE : Nat := 100000000

def CHANNEL_TIMEOUT : Nat := 100

def Channel.new (id : Nat) (l1Block : BlockID) : Channel :=
  { frames := []
    id := id
    size := 0
    highestFrameNumber := 0
    endFrameNumber := none
    lowestL1Block := l1Block
    highestL1Block := l1Block }

def Channel.closed (c : Channel) : Bool :=
  c.endFrameNumber.isSome

/-- Channel::load_frame.  The four reject conditions and the is_last handling
follow the source line by line; frames.drain_filter(k > frame.number) becomes a
partition of the association list, and the `size -= v.size()` accumulation over
the drained frames becomes subtraction of their summed sizes. -/
def Channel.loadFrame (c : Channel) (frame : Frame) (l1Block : BlockID) : Channel :=
  if c.id ≠ frame.id
      ∨ (c.closed = true ∧ frame.isLast = true)
      ∨ acontains c.frames frame.number = true
      ∨ (c.closed = true ∧ frame.number > c.highestFrameNumber) then
    c
  else
    let c1 :=
      if frame.isLast = true then
        let c0 := { c with endFrameNumber := some frame.number }
        if frame.number > c0.highestFrameNumber then
          let part := c0.frames.partition (fun kv => kv.1 > frame.number)
          { c0 with
              frames := part.2
              size := c0.size - (part.1.map (fun kv => kv.2.size)).sum
              highestFrameNumber := frame.number }
        else c0
      else c
    { c1 with
        highestFrameNumber := max c1.highestFrameNumber frame.number
        highestL1Block := BlockID.maxBy c1.highestL1Block l1Block
        size := c1.size + frame.size
        frames := ainsert c1.frames frame.number frame }

def Channel.isReady (c : Channel) : Bool :=
  match c.endFrameNumber with
  | none => false
  | some last => (List.range (last + 1)).all (fun i => acontains c.frames i)

def msgUnwrapNone : String := "called Option::unwrap on a None value"

/-- The (0..=end).flat_map(frames.remove(i).unwrap().data) loop of
Channel::data, as a fold over the listed indices (the indices are pairwise
distinct, so reading instead of removing is observationally the same). -/
def collectData (m : List (Nat × Frame)) : List Nat → Except String (List Nat)
  | [] => .ok []
  | i :: rest =>
    match alookup m i with
    | none => .error msgUnwrapNone
    | some f => do
      let r ← collectData m rest
      .ok (f.data ++ r)

/-- Channel::data; panics (on the end_frame_number unwrap or a missing frame)
become errors. -/
def Channel.data (c : Channel) : Except String (List Nat) :=
  match c.endFrameNumber with
  | none => .error msgUnwrapNone
  | some last => collectData c.frames (List.range (last + 1))

def Channel.isTimedOut (c : Channel) : Bool :=
  decide (c.highestL1Block.number - c.lowestL1Block.number > CHANNEL_TIMEOUT)

/-- Folding Channel::load_frame over a list of calls (used to describe the
channel states reachable from Channel::new). -/
def Channel.loadAll (c : Channel) : List (Frame × BlockID) → Channel
  | [] => c
  | (f, b) :: rest => (c.loadFrame f b).loadAll rest

/-! ## ChannelBank (src/main.rs lines 42-168) -/

structure ChannelBank where
  channelsMap : List (Nat × Channel)
  channelsByCreation : List Nat
deriving DecidableEq

def ChannelBank.default : ChannelBank :=
  { channelsMap := [], channelsByCreation := [] }

/-- ChannelBank::peek: channels_map.get(channels_by_creation.front()?). -/
def ChannelBank.peek (b : ChannelBank) : Option Channel :=
  match b.channelsByCreation with
  | [] => none
  | id :: _ => alookup b.channelsMap id

/-- ChannelBank::remove: channels_map.remove(channels_by_creation.pop_front()?).
The popped-but-failed-map-removal intermediate state is only ever observed
through a panic (prune's expect), so returning none there is faithful. -/
def ChannelBank.remove (b : ChannelBank) : Option (Channel × ChannelBank) :=
  match b.channelsByCreation with
  | [] => none
  | id :: rest =>
    match alookup b.channelsMap id with
    | none => none
    | some c => some (c, { channelsMap := aerase b.channelsMap id, channelsByCreation := rest })

/-- ChannelBank::total_size: channels_map.values().map(|c| c.size).sum(). -/
def ChannelBank.totalSize (b : ChannelBank) : Nat :=
  (b.channelsMap.map (fun kv => kv.2.size)).sum

def msgPruneExpect : String := "Should have removed a channel"

/-- The while-loop of ChannelBank::prune, unrolled on the creation queue (each
successful remove pops its front, so the queue length bounds the iteration).
A failing remove is the expect panic. -/
def pruneAux : List (Nat × Channel) → List Nat → Except String (List (Nat × Channel) × List Nat)
  | m, order =>
    if (m.map (fun kv => kv.2.size)).sum > MAX_CHANNEL_BANK_SIZE then
      match order with
      | [] => .error msgPruneExpect
      | id :: rest =>
        match alookup m id with
        | none => .error msgPruneExpect
        | some _ => pruneAux (aerase m id) rest
    else .ok (m, order)

def ChannelBank.prune (b : ChannelBank) : Except String ChannelBank := do
  let (m, o) ← pruneAux b.channelsMap b.channelsByCreation
  .ok { channelsMap := m, channelsByCreation := o }

def msgSpecsViolation : String :=
  "Specs Violation: must pull data before loading more in the channel bank"

/-- ChannelBank::load_frame: the assert, the entry().or_insert_with() channel
creation (pushing the id onto channels_by_creation), the dispatch to
Channel::load_frame, and the prune. -/
def ChannelBank.loadFrame (b : ChannelBank) (frame : Frame) (l1Block : BlockID) :
    Except String ChannelBank := do
  if (b.peek.map Channel.isReady).getD false = true then
    .error msgSpecsViolation
  else
    let b1 : ChannelBank :=
      match alookup b.channelsMap frame.id with
      | some _ =>
        { b with channelsMap := aupdate b.channelsMap frame.id (fun c => c.loadFrame frame l1Block) }
      | none =>
        { channelsMap := b.channelsMap ++ [(frame.id, (Channel.new frame.id l1Block).loadFrame frame l1Block)]
          channelsByCreation := b.channelsByCreation ++ [frame.id] }
    b1.prune

/-- ChannelBank::load_frames: the frames are loaded in input order. -/
def ChannelBank.loadFrames (b : ChannelBank) (frames : List Frame) (l1Block : BlockID) :
    Except String ChannelBank :=
  match frames with
  | [] => .ok b
  | f :: rest => do
    let b' ← b.loadFrame f l1Block
    b'.loadFrames rest l1Block

/-- ChannelBank::get_channel_data; the remove().unwrap() and the panics inside
Channel::data become errors. -/
def ChannelBank.getChannelData (b : ChannelBank) :
    Except String (Option (List Nat) × ChannelBank) :=
  match b.peek with
  | none => .ok (none, b)
  | some c =>
    if c.isReady = true then
      match b.remove with
      | none => .error msgUnwrapNone
      | some (ch, b') =>
        if ch.isTimedOut = true then
          .ok (none, b')
        else do
          let d ← ch.data
          .ok (some d, b')
    else .ok (none, b)

/-- The two public ChannelBank operations (spec section 8, invariant 1 speaks of
every observable state after load_frames / get_channel_data calls). -/
inductive BankOp where
  | load (frames : List Frame) (l1Block : BlockID)
  | get
deriving DecidableEq

def ChannelBank.step (b : ChannelBank) : BankOp → Except String ChannelBank
  | .load fs l1 => b.loadFrames fs l1
  | .get => (b.getChannelData).map (fun r => r.2)

def ChannelBank.runOps (b : ChannelBank) : List BankOp → Except String ChannelBank
  | [] => .ok b
  | op :: rest => do
    let b' ← b.step op
    b'.runOps rest

/-! ## BatchQueue (src/main.rs lines 170-209)

The Batch type is declared in the types module (absent from src/); decoded
transactions come from the external ethers RLP decoder, which is embedded as an
arbitrary decode function with an abstract result type. -/

/-- Modelled from the spec: Batch (types module, absent from src/): a timestamp
and a list of raw transaction byte strings; parent hash and epoch are opaque to
the core (section 3).  The source accesses these as b.batch.timestamp and
b.batch.transactions; the inner wrapper is flattened. -/
structure Batch where
  timestamp : Nat
  transactions : List (List Nat)
deriving DecidableEq

structure L2BlockCandidate (Tx : Type) where
  number : Nat
  timestamp : Nat
  transactions : List Tx

structure BatchQueue where
  l1Blocks : List L1BlockRef
  batches : List (Nat × List Batch)
deriving DecidableEq

def BatchQueue.default : BatchQueue :=
  { l1Blocks := [], batches := [] }

def L2_BLOCK_TIME : Nat := 2

def SEQ_WINDOW_SIZE : Nat := 3600

/-- The per-batch body of BatchQueue::load_batches: create an empty queue for
the batch's timestamp if absent, then push_back the batch. -/
def loadBatchesLoop : List (Nat × List Batch) → List Batch → List (Nat × List Batch)
  | m, [] => m
  | m, b :: rest =>
    let m1 := match alookup m b.timestamp with
      | none => m ++ [(b.timestamp, [])]
      | some _ => m
    loadBatchesLoop (aupdate m1 b.timestamp (fun q => q ++ [b])) rest

/-- BatchQueue::load_batches (the println! debug output is dropped). -/
def BatchQueue.loadBatches (q : BatchQueue) (bs : List Batch) (l1Origin : L1BlockRef) :
    BatchQueue :=
  { l1Blocks := q.l1Blocks ++ [l1Origin], batches := loadBatchesLoop q.batches bs }

/-- The candidates.iter().map(|t| decode(t).unwrap()).collect() of
get_block_candidate: the first transaction that fails to decode panics. -/
def decodeAll {Tx : Type} (decode : List Nat → Option Tx) :
    List (List Nat) → Except String (List Tx)
  | [] => .ok []
  | t :: ts =>
    match decode t with
    | none => .error msgUnwrapNone
    | some tx => do
      let rest ← decodeAll decode ts
      .ok (tx :: rest)

def msgQueueExpect : String := "Should have entry in any created queue"

/-- BatchQueue::get_block_candidate. -/
def BatchQueue.getBlockCandidate {Tx : Type} (decode : List Nat → Option Tx)
    (q : BatchQueue) (l2Head : L2BlockRef) :
    Except String (Option (L2BlockCandidate Tx) × BatchQueue) :=
  let nextTimestamp := l2Head.time + L2_BLOCK_TIME
  match alookup q.batches nextTimestamp with
  | some candidates =>
    match candidates.head? with
    | none => .error msgQueueExpect
    | some out => do
      let txns ← decodeAll decode out.transactions
      .ok (some { number := l2Head.number + 1, timestamp := nextTimestamp, transactions := txns },
            { l1Blocks := q.l1Blocks, batches := aerase q.batches nextTimestamp })
  | none => .ok (none, q)

/-- The two public BatchQueue operations. -/
inductive QueueOp where
  | load (bs : List Batch) (l1Origin : L1BlockRef)
  | get (l2Head : L2BlockRef)
deriving DecidableEq

def BatchQueue.step {Tx : Type} (decode : List Nat → Option Tx) (q : BatchQueue) :
    QueueOp → Except String BatchQueue
  | .load bs o => .ok (q.loadBatches bs o)
  | .get h => (q.getBlockCandidate decode h).map (fun r => r.2)

def BatchQueue.runOps {Tx : Type} (decode : List Nat → Option Tx) (q : BatchQueue) :
    List QueueOp → Except String BatchQueue
  | [] => .ok q
  | op :: rest => do
    let q' ← q.step decode op
    q'.runOps decode rest

/-! ## Frame parsing and Derivation (src/main.rs lines 241-272)

parse_frames lives in the data module, absent from src/; it is modelled from
spec section 4.1.  channel_bytes_to_batches zlib-decompresses through the
external flate2 crate, so it is embedded as a function parameter. -/

/-- Modelled from the spec: big-endian byte concatenation for the multi-byte
frame fields of section 4.1. -/
def beNat (bytes : List Nat) : Nat :=
  bytes.foldl (fun a b => a * 256 + b) 0

/-- Modelled from the spec: the expected calldata version byte; section 9 notes
the source does not enforce a specific value, so 0 is picked here. -/
def expectedVersion : Nat := 0

/-- Modelled from the spec: the frame-decoding loop of parse_frames (data
module, absent from src/), per section 4.1: each frame is a 16-byte channel_id,
a 2-byte big-endian number, a 4-byte big-endian data length, the data, and one
is_last byte (non-zero means last); parsing faults on EOF or length overflow.
The fuel argument (the byte count, each frame consuming at least one byte) only
discharges termination. -/
def parseFramesLoop : Nat → List Nat → List Frame → Option (List Frame)
  | _, [], acc => some acc.reverse
  | 0, _, _ => none
  | fuel + 1, bytes, acc =>
    if bytes.length < 23 then none
    else
      let id := beNat (bytes.take 16)
      let number := beNat ((bytes.drop 16).take 2)
      let len := beNat ((bytes.drop 18).take 4)
      let rest := bytes.drop 22
      if rest.length < len + 1 then none
      else
        let data := rest.take len
        let isLast := (rest.drop len).headD 0 ≠ 0
        parseFramesLoop fuel (rest.drop (len + 1))
          ({ id := id, number := number, data := data, isLast := isLast } :: acc)

/-- Modelled from the spec: parse_frames (data module, absent from src/),
section 4.1: a version byte, then concatenated frames; a malformed buffer
yields no frames at all (the spec's conservative rule). -/
def parseFrames (input : List Nat) : List Frame :=
  match input with
  | [] => []
  | v :: rest =>
    if v = expectedVersion then (parseFramesLoop rest.length rest []).getD []
    else []

/-- Modelled from the spec: Transaction as consumed by the pipeline (external
ethers type): a sender address and the raw input calldata (section 6). -/
structure Transaction where
  sender : Nat
  input : List Nat
deriving DecidableEq

/-- The batcher address constant of frames_from_transactions
(0x7431310e026B69BFC676C0013E12A1A11411EEc9). -/
def batcherAddress : Nat := 0x7431310e026B69BFC676C0013E12A1A11411EEc9

/-- frames_from_transactions: keep transactions sent by the batcher address and
concatenate their parsed frames. -/
def framesFromTransactions (transactions : List Transaction) : List Frame :=
  (transactions.filter (fun tx => tx.sender = batcherAddress)).flatMap
    (fun tx => parseFrames tx.input)

structure Derivation where
  channelBank : ChannelBank
  batchQueue : BatchQueue
deriving DecidableEq

def Derivation.default : Derivation :=
  { channelBank := ChannelBank.default, batchQueue := BatchQueue.default }

/-- The while-let drain loop of load_l1_data; each Some iteration has removed a
channel, so the creation-queue length bounds the iteration count and serves as
fuel. channelBytesToBatches stands for the zlib/RLP channel_bytes_to_batches,
whose decompressor is external. -/
def drainLoop (channelBytesToBatches : List Nat → List Batch) :
    Nat → ChannelBank → List Batch → Except String (List Batch × ChannelBank)
  | 0, b, acc => .ok (acc, b)
  | fuel + 1, b, acc => do
    let (r, b') ← b.getChannelData
    match r with
    | none => .ok (acc, b')
    | some data => drainLoop channelBytesToBatches fuel b' (acc ++ channelBytesToBatches data)

/-- Derivation::load_l1_data (receipts are an unused parameter in the source). -/
def Derivation.loadL1Data (channelBytesToBatches : List Nat → List Batch)
    (d : Derivation) (l1Block : L1BlockRef) (transactions : List Transaction) :
    Except String Derivation := do
  let frames := framesFromTransactions transactions
  let bank ← d.channelBank.loadFrames frames l1Block.toBlockID
  let (batches, bank') ← drainLoop channelBytesToBatches bank.channelsByCreation.length bank []
  .ok { channelBank := bank', batchQueue := d.batchQueue.loadBatches batches l1Block }

/-! ## Merkle Patricia Trie (crates/mpt/src/lib.rs)

The node sum type keeps the memoized hash fields of the source (they are
created as None and never read by insertion).  BranchNode is flattened into the
branch constructor; its (children, branch_value, hash) triple reappears in the
helper constructors. -/

structure ValueN where
  value : List Nat
  hash : Option Nat
deriving DecidableEq

inductive Node where
  | empty
  | value (v : ValueN)
  | extension (nibbles : List Nat) (child : Node) (hash : Option Nat)
  | branch (children : List Node) (branchValue : Option ValueN) (hash : Option Nat)

instance : Inhabited Node := ⟨Node.empty⟩

/-- ValueNode::new. -/
def ValueN.new (v : List Nat) : ValueN :=
  { value := v, hash := none }

/-- The default children array of BranchNode (16 empty slots). -/
def emptyChildren : List Node :=
  List.replicate 16 Node.empty

/-- BranchNode::new_with_node, as the (children, branch_value, hash) triple. -/
def BranchNode.newWithNode (key : Nat) (node : Node) : List Node × Option ValueN × Option Nat :=
  (emptyChildren.set key node, none, none)

/-- BranchNode::new_with_value, as the (children, branch_value, hash) triple. -/
def BranchNode.newWithValue (v : ValueN) : List Node × Option ValueN × Option Nat :=
  (emptyChildren, some v, none)

/-- Node::new. -/
def Node.new (nibbles : List Nat) (value : List Nat) : Node :=
  if nibbles.isEmpty then .value (ValueN.new value)
  else .extension nibbles (.value (ValueN.new value)) none

/-- Node::new_with_node. -/
def Node.newWithNode (nibbles : List Nat) (child : Node) : Node :=
  if nibbles.isEmpty then child
  else .extension nibbles child none

/-- match_paths: the longest common head of key and path, and the two
remainders. -/
def matchPaths : List Nat → List Nat → List Nat × List Nat × List Nat
  | a :: xs, b :: ys =>
    if a = b then
      let r := matchPaths xs ys
      (a :: r.1, r.2.1, r.2.2)
    else ([], a :: xs, b :: ys)
  | xs, ys => ([], xs, ys)

def msgValueInsert : String := "Cannot insert into a value node"

def msgSamePaths : String := "Paths cannot be the same"

def msgEmptyChild : String := "Cannot point to an empty node in an extension"

def msgExtChild : String := "Cannot point to an extension node in an extension node"

def msgFuel : String := "recursion fuel exhausted"

mutual

/-- Node::insert and BranchNode::insert.  The mutual recursion terminates
because the nibble list shrinks across a branch step; here a fuel argument
(2 * nibbles.length + 2 always suffices, see Node.insert) makes the recursion
structural.  BranchNode::insert returning None (double value insert) is ok none;
every panic and the out-of-range child index are errors. -/
def Node.insertF : Nat → Node → List Nat → List Nat → Except String Node
  | 0, _, _, _ => .error msgFuel
  | _ + 1, .empty, nibbles, value => .ok (Node.new nibbles value)
  | fuel + 1, .branch cs bv hsh, nibbles, value =>
    match branchInsertF fuel cs bv hsh nibbles value with
    | .error e => .error e
    | .ok none => .error msgUnwrapNone
    | .ok (some n) => .ok n
  | fuel + 1, .extension pn c _hsh, nibbles, value =>
    let m := matchPaths nibbles pn
    if m.2.1.isEmpty && m.2.2.isEmpty then .error msgSamePaths
    else
      let base : Except String (List Node × Option ValueN × Option Nat) :=
        if m.2.2.isEmpty then
          match c with
          | .empty => .error msgEmptyChild
          | .extension _ _ _ => .error msgExtChild
          | .value vn => .ok (BranchNode.newWithValue vn)
          | .branch ccs cbv cbh => .ok (ccs, cbv, cbh)
        else
          .ok (BranchNode.newWithNode (m.2.2.headD 0) (Node.newWithNode (m.2.2.drop 1) c))
      match base with
      | .error e => .error e
      | .ok (cs, bv, bh) =>
        match branchInsertF fuel cs bv bh m.2.1 value with
        | .error e => .error e
        | .ok none => .error msgUnwrapNone
        | .ok (some bn) => .ok (if m.1.isEmpty then bn else .extension m.1 bn none)
  | _ + 1, .value _, _, _ => .error msgValueInsert

def branchInsertF : Nat → List Node → Option ValueN → Option Nat → List Nat → List Nat →
    Except String (Option Node)
  | 0, _, _, _, _, _ => .error msgFuel
  | _ + 1, cs, bv, hsh, [], value =>
    match bv with
    | some _ => .ok none
    | none => .ok (some (.branch cs (some (ValueN.new value)) hsh))
  | fuel + 1, cs, bv, hsh, i :: rest, value =>
    match Node.insertF fuel (cs.getD i .empty) rest value with
    | .error e => .error e
    | .ok c' => .ok (some (.branch (cs.set i c') bv hsh))

end

/-- Node::insert.  Every chain of recursive calls alternates Node::insert and
BranchNode::insert and strictly shortens the nibble list at least every second
step, so 2 * nibbles.length + 2 units of fuel always suffice. -/
def Node.insert (n : Node) (nibbles value : List Nat) : Except String Node :=
  Node.insertF (2 * nibbles.length + 2) n nibbles value

/-- bytes_to_nibbles: high nibble then low nibble of each byte. -/
def bytesToNibbles (key : List Nat) : List Nat :=
  key.flatMap (fun b => [b >>> 4, b &&& 15])

structure MPT where
  root : Node
  db : List (Nat × List Nat)

/-- MPT::new. -/
def MPT.new : MPT :=
  { root := .empty, db := [] }

/-- MPT::insert. -/
def MPT.insert (t : MPT) (k v : List Nat) : Except String MPT := do
  let root' ← t.root.insert (bytesToNibbles k) v
  .ok { root := root', db := t.db }

/-- A sequence of MPT::insert calls. -/
def MPT.insertAll (t : MPT) : List (List Nat × List Nat) → Except String MPT
  | [] => .ok t
  | (k, v) :: rest => do
    let t' ← t.insert k v
    t'.insertAll rest

/-! ## Compact (hex-prefix) encoding (crates/mpt/src/lib.rs lines 254-292) -/

/-- The chunks_exact(2) packing loop of nibbles_to_compact (a trailing odd
nibble is dropped by chunks_exact; the u8 shift wraps mod 256). -/
def packPairs : List Nat → List Nat
  | a :: b :: rest => (((a <<< 4) % 256) ||| b) :: packPairs rest
  | _ => []

/-- nibbles_to_compact. -/
def nibblesToCompact (nibbles : List Nat) (extension : Bool) : List Nat :=
  let even : Bool := nibbles.length % 2 == 0
  let flagNibble : Nat :=
    match extension, even with
    | true, true => 0
    | true, false => 1
    | false, true => 2
    | false, false => 3
  let first0 := (flagNibble <<< 4) % 256
  if ¬nibbles.isEmpty ∧ even = false then
    (first0 ||| nibbles.headD 0) :: packPairs nibbles.tail
  else
    first0 :: packPairs nibbles

def unpackBytes : List Nat → List Nat
  | [] => []
  | b :: rest => (b >>> 4) :: (b &&& 15) :: unpackBytes rest

def msgOutOfRange : String := "out of range"

def msgIndexOOB : String := "index out of bounds"

/-- compact_to_nibbles; the out-of-range flag nibble panic and the indexing
into an empty slice become errors. -/
def compactToNibbles (compact : List Nat) : Except String (List Nat × Bool) :=
  match compact with
  | [] => .error msgIndexOOB
  | c0 :: rest =>
    match c0 >>> 4 with
    | 0 => .ok (unpackBytes rest, true)
    | 1 => .ok ((c0 &&& 15) :: unpackBytes rest, true)
    | 2 => .ok (unpackBytes rest, false)
    | 3 => .ok ((c0 &&& 15) :: unpackBytes rest, false)
    | _ => .error msgOutOfRange

/-! ## The key set stored in a trie, and well-formedness

Node.keys lists the nibble paths whose insertion produced the trie; Wf captures
the structural invariants the insertion algorithm maintains (section 4.4: an
extension has a nonempty path and a branch or value child; a branch has 16
slots). -/

mutual

def Node.keys : Node → List (List Nat)
  | .empty => []
  | .value _ => [[]]
  | .extension p c _ => (Node.keys c).map (fun t => p ++ t)
  | .branch cs bv _ =>
    (match bv with
      | some _ => [[]]
      | none => []) ++ keysChildren cs 0

def keysChildren : List Node → Nat → List (List Nat)
  | [], _ => []
  | c :: rest, i => (Node.keys c).map (fun t => i :: t) ++ keysChildren rest (i + 1)

end

/-- Extension children may only be branches or values (spec section 4.4). -/
def isBranchOrValue : Node → Prop
  | .branch _ _ _ => True
  | .value _ => True
  | _ => False

inductive Wf : Node → Prop where
  | empty : Wf .empty
  | value : ∀ v, Wf (.value v)
  | extension : ∀ p c h, p ≠ [] → (∀ x ∈ p, x < 16) → isBranchOrValue c → Wf c →
      Node.keys c ≠ [] → Wf (.extension p c h)
  | branch : ∀ cs bv h, cs.length = 16 → (∀ c ∈ cs, Wf c) → Wf (.branch cs bv h)

/-! ## C1 and C2: the retroactive-truncation drain of Channel::load_frame is dead code

The drain_filter that should evict frames above a late-arriving last frame is
guarded by frame.number > highest_frame_number; but when that guard holds no
stored frame exceeds frame.number, and when a last frame arrives below
already-seen numbers the guard is false, so nothing is ever evicted.  The state
below is reached by two Channel::load_frame calls. -/

def exBlock : BlockID := { hash := 0, number := 0 }

def exFrame1 : Frame := { id := 1, number := 1, data := [7], isLast := false }

def exFrame0 : Frame := { id := 1, number := 0, data := [8], isLast := true }

def exChannel : Channel :=
  ((Channel.new 1 exBlock).loadFrame exFrame1 exBlock).loadFrame exFrame0 exBlock

/-- C1: after accepting the late last frame number 0, the channel does keep
end_frame_number = 0 and becomes ready, but the frame with number 1 is NOT
evicted and the size does NOT decrease (it grows to 2): the claimed eviction
never happens, refuting the claim on the code. -/
theorem channel_load_frame_eviction_code_bug :
    exChannel.endFrameNumber = some 0 ∧
    alookup exChannel.frames 1 = some exFrame1 ∧
    exChannel.size = 2 ∧
    exChannel.isReady = true := by
  refine ⟨rfl, rfl, rfl, rfl⟩

/-- C2: the same two load_frame calls reach a channel state with
end_frame_number = Some 0 while a frame with number 1 > 0 is still stored,
refuting the claimed invariant on the code. -/
theorem channel_end_frame_invariant_code_bug :
    exChannel.endFrameNumber = some 0 ∧ acontains exChannel.frames 1 = true := by
  refine ⟨rfl, rfl⟩

/-! ## C3: the channel-bank assertion can fire inside a single load_l1_data

load_l1_data loads every frame of the block before draining, so a frame that
completes the head channel followed by any further frame trips the assert in
ChannelBank::load_frame.  The input below is one batcher transaction carrying a
closing frame for channel 1 and then a frame for channel 2. -/

def c3Frame1Bytes : List Nat :=
  List.replicate 15 0 ++ [1] ++ [0, 0] ++ [0, 0, 0, 0] ++ [1]

def c3Frame2Bytes : List Nat :=
  List.replicate 15 0 ++ [2] ++ [0, 0] ++ [0, 0, 0, 0] ++ [0]

def c3Tx : Transaction :=
  { sender := batcherAddress, input := expectedVersion :: (c3Frame1Bytes ++ c3Frame2Bytes) }

def c3L1Block : L1BlockRef :=
  { hash := 0, number := 0, parentHash := 0, time := 0 }

/-- C3: one load_l1_data call on a fresh pipeline whose batcher transaction
carries frame(channel 1, number 0, is_last) followed by frame(channel 2,
number 0): the specs-violation assert fires (the claim says it never does). -/
theorem load_l1_data_assert_code_bug :
    Derivation.loadL1Data (fun _ => []) Derivation.default c3L1Block [c3Tx] =
      .error msgSpecsViolation := by
  rfl

/-! ## C9: highest_l1_block never drops below lowest_l1_block -/

lemma loadFrame_lowest_highest (c : Channel) (f : Frame) (b : BlockID) :
    (c.loadFrame f b).lowestL1Block.number = c.lowestL1Block.number ∧
    c.highestL1Block.number ≤ (c.loadFrame f b).highestL1Block.number := by
  unfold Channel.loadFrame BlockID.maxBy
  split
  · exact ⟨rfl, Nat.le_refl _⟩
  · dsimp only
    repeat' split
    all_goals refine ⟨rfl, ?_⟩
    all_goals try dsimp only at *
    all_goals omega

/-- C9: in every channel state reachable by load_frame calls from
Channel::new, lowest_l1_block.number ≤ highest_l1_block.number (they start
equal and load_frame only raises the highest block), so the u64 subtraction in
is_timed_out cannot underflow. -/
theorem channel_highest_ge_lowest (id : Nat) (b0 : BlockID) (evs : List (Frame × BlockID)) :
    ((Channel.new id b0).loadAll evs).lowestL1Block.number ≤
      ((Channel.new id b0).loadAll evs).highestL1Block.number := by
  have key : ∀ (l : List (Frame × BlockID)) (c : Channel),
      c.lowestL1Block.number ≤ c.highestL1Block.number →
      (c.loadAll l).lowestL1Block.number ≤ (c.loadAll l).highestL1Block.number := by
    intro l
    induction l with
    | nil => intro c h; exact h
    | cons e rest ih =>
      intro c h
      obtain ⟨f, b⟩ := e
      have hm := loadFrame_lowest_highest c f b
      exact ih _ (by omega)
  exact key evs _ (Nat.le_refl _)

/-! ## C7: compact_to_nibbles inverts nibbles_to_compact -/

lemma byteRoundTrip : ∀ a < 16, ∀ b < 16,
    (((a <<< 4) % 256) ||| b) >>> 4 = a ∧ (((a <<< 4) % 256) ||| b) &&& 15 = b := by
  decide

lemma flagByteOdd : ∀ b < 16,
    ((16 ||| b) >>> 4 = 1 ∧ (16 ||| b) &&& 15 = b) ∧
    ((48 ||| b) >>> 4 = 3 ∧ (48 ||| b) &&& 15 = b) := by
  decide

lemma unpack_pack : ∀ l : List Nat, (∀ x ∈ l, x < 16) → l.length % 2 = 0 →
    unpackBytes (packPairs l) = l
  | [], _, _ => rfl
  | [a], _, hlen => by simp at hlen
  | a :: b :: rest, h, hlen => by
    have ha : a < 16 := h a (by simp)
    have hb : b < 16 := h b (by simp)
    have ih := unpack_pack rest (fun x hx => h x (by simp [hx])) (by
      simp only [List.length_cons] at hlen
      omega)
    have hbr := byteRoundTrip a ha b hb
    simp [packPairs, unpackBytes, hbr.1, hbr.2, ih]

/-- C7: for every nibble sequence p with entries below 16 and both flag
values, compact_to_nibbles(nibbles_to_compact(p, flag)) = (p, flag). -/
theorem compact_nibbles_roundtrip (p : List Nat) (flag : Bool) (h : ∀ x ∈ p, x < 16) :
    compactToNibbles (nibblesToCompact p flag) = .ok (p, flag) := by
  by_cases he : p.length % 2 = 0
  · cases flag with
    | false =>
      have h1 : nibblesToCompact p false = 32 :: packPairs p := by
        unfold nibblesToCompact
        simp [he]
      rw [h1]
      show Except.ok (unpackBytes (packPairs p), false) = _
      rw [unpack_pack p h he]
    | true =>
      have h1 : nibblesToCompact p true = 0 :: packPairs p := by
        unfold nibblesToCompact
        simp [he]
      rw [h1]
      show Except.ok (unpackBytes (packPairs p), true) = _
      rw [unpack_pack p h he]
  · cases p with
    | nil => simp at he
    | cons p0 rest =>
      have he1 : (p0 :: rest).length % 2 = 1 := Nat.mod_two_eq_zero_or_one _ |>.resolve_left he
      have hrest : rest.length % 2 = 0 := by
        simp only [List.length_cons] at he1
        omega
      have hp0 : p0 < 16 := h p0 (by simp)
      have hrest16 : ∀ x ∈ rest, x < 16 := fun x hx => h x (by simp [hx])
      have he2 : (rest.length + 1) % 2 = 1 := by simpa using he1
      cases flag with
      | false =>
        have h1 : nibblesToCompact (p0 :: rest) false = (48 ||| p0) :: packPairs rest := by
          unfold nibblesToCompact
          simp [he2]
        rw [h1]
        simp only [compactToNibbles]
        rw [((flagByteOdd p0 hp0).2).1]
        simp [((flagByteOdd p0 hp0).2).2, unpack_pack rest hrest16 hrest]
      | true =>
        have h1 : nibblesToCompact (p0 :: rest) true = (16 ||| p0) :: packPairs rest := by
          unfold nibblesToCompact
          simp [he2]
        rw [h1]
        simp only [compactToNibbles]
        rw [((flagByteOdd p0 hp0).1).1]
        simp [((flagByteOdd p0 hp0).1).2, unpack_pack rest hrest16 hrest]

/-- C7 witness: the round trip at the concrete nibble sequence [1, 2, 3] with
the extension flag set. -/
theorem compact_nibbles_roundtrip_witness :
    compactToNibbles (nibblesToCompact [1, 2, 3] true) = .ok ([1, 2, 3], true) :=
  compact_nibbles_roundtrip [1, 2, 3] true (by decide)

/-! ## Association-list lemmas -/

lemma ebind_error {α β : Type} (e : String) (f : α → Except String β) :
    ((Except.error e : Except String α) >>= f) = Except.error e := rfl

lemma ebind_ok {α β : Type} (a : α) (f : α → Except String β) :
    ((Except.ok a : Except String α) >>= f) = f a := rfl

lemma alookup_mem {α : Type} : ∀ (m : List (Nat × α)) (k : Nat) (v : α),
    alookup m k = some v → (k, v) ∈ m
  | [], _, _, h => by simp [alookup] at h
  | (k0, w) :: rest, k, v, h => by
    by_cases hk : k0 = k
    · subst hk
      simp [alookup] at h
      simp [h]
    · simp [alookup, hk] at h
      exact List.mem_cons_of_mem _ (alookup_mem rest k v h)

lemma mem_aupdate {α : Type} : ∀ (m : List (Nat × α)) (k : Nat) (f : α → α) (kv : Nat × α),
    kv ∈ aupdate m k f → kv ∈ m ∨ ∃ w, kv = (k, f w)
  | [], _, _, _, h => by simp [aupdate] at h
  | (k0, w) :: rest, k, f, kv, h => by
    by_cases hk : k0 = k
    · subst hk
      simp [aupdate] at h
      rcases h with h | h
      · exact Or.inr ⟨w, h⟩
      · exact Or.inl (List.mem_cons_of_mem _ h)
    · simp [aupdate, hk] at h
      rcases h with h | h
      · exact Or.inl (by simp [h])
      · rcases mem_aupdate rest k f kv h with h1 | h1
        · exact Or.inl (List.mem_cons_of_mem _ h1)
        · exact Or.inr h1

lemma mem_aerase {α : Type} : ∀ (m : List (Nat × α)) (k : Nat) (kv : Nat × α),
    kv ∈ aerase m k → kv ∈ m
  | [], _, _, h => by simp [aerase] at h
  | (k0, w) :: rest, k, kv, h => by
    by_cases hk : k0 = k
    · subst hk
      simp [aerase] at h
      exact List.mem_cons_of_mem _ h
    · simp [aerase, hk] at h
      rcases h with h | h
      · simp [h]
      · exact List.mem_cons_of_mem _ (mem_aerase rest k kv h)

lemma aupdate_append_single {α : Type} : ∀ (m : List (Nat × α)) (k : Nat) (v : α) (f : α → α),
    alookup m k = none → aupdate (m ++ [(k, v)]) k f = m ++ [(k, f v)]
  | [], k, v, f, _ => by simp [aupdate]
  | (k0, w) :: rest, k, v, f, h => by
    by_cases hk : k0 = k
    · subst hk
      simp [alookup] at h
    · simp [alookup, hk] at h
      simp [aupdate, hk, aupdate_append_single rest k v f h]

/-! ## C10: a transaction that fails to decode makes get_block_candidate panic -/

lemma decodeAll_error {Tx : Type} (decode : List Nat → Option Tx) :
    ∀ ts : List (List Nat), (∃ t ∈ ts, decode t = none) →
    ∃ e, decodeAll decode ts = .error e
  | [], h => by simp at h
  | t :: ts, h => by
    cases hd : decode t with
    | none => exact ⟨msgUnwrapNone, by simp [decodeAll, hd]⟩
    | some tx =>
      obtain ⟨t0, ht0, hn⟩ := h
      rcases List.mem_cons.mp ht0 with h0 | h0
      · subst h0
        rw [hd] at hn
        cases hn
      · obtain ⟨e, he⟩ := decodeAll_error decode ts ⟨t0, h0, hn⟩
        refine ⟨e, ?_⟩
        unfold decodeAll
        rw [hd, he]
        rfl

/-- C10: whenever the first batch stored for the target timestamp
l2_head.time + 2 contains a transaction whose bytes do not decode,
get_block_candidate panics (the decode result is unwrapped) instead of
skipping the batch or returning None. -/
theorem get_block_candidate_decode_error {Tx : Type} (decode : List Nat → Option Tx)
    (q : BatchQueue) (l2Head : L2BlockRef) (b : Batch) (l : List Batch)
    (hentry : alookup q.batches (l2Head.time + L2_BLOCK_TIME) = some (b :: l))
    (hbad : ∃ t ∈ b.transactions, decode t = none) :
    ∃ e, q.getBlockCandidate decode l2Head = .error e := by
  obtain ⟨e, he⟩ := decodeAll_error decode b.transactions hbad
  refine ⟨e, ?_⟩
  unfold BatchQueue.getBlockCandidate
  simp only [hentry, List.head?_cons, he, ebind_error]

def c10Batch : Batch := { timestamp := 2, transactions := [[9]] }

def c10Queue : BatchQueue := { l1Blocks := [], batches := [(2, [c10Batch])] }

def c10Head : L2BlockRef := { hash := 0, number := 0, time := 0 }

/-- C10 witness: a queue holding one batch at timestamp 2 whose single
transaction never decodes. -/
theorem get_block_candidate_decode_error_witness :
    ∃ e, c10Queue.getBlockCandidate (fun _ => (none : Option Nat)) c10Head = .error e :=
  get_block_candidate_decode_error (fun _ => (none : Option Nat)) c10Queue c10Head c10Batch []
    (by rfl) ⟨[9], by simp [c10Batch], rfl⟩

/-! ## C6: get_block_candidate against the queue built by load_batches -/

/-- Every stored timestamp queue is nonempty (load_batches pushes into each
entry it creates, and get_block_candidate removes whole entries). -/
def entriesNE (q : BatchQueue) : Prop :=
  ∀ kv ∈ q.batches, kv.2 ≠ ([] : List Batch)

lemma loadBatchesLoop_NE : ∀ (bs : List Batch) (m : List (Nat × List Batch)),
    (∀ kv ∈ m, kv.2 ≠ ([] : List Batch)) →
    ∀ kv ∈ loadBatchesLoop m bs, kv.2 ≠ ([] : List Batch)
  | [], m, hm => by simpa [loadBatchesLoop] using hm
  | b :: bs, m, hm => by
    cases hl : alookup m b.timestamp with
    | some qEntry =>
      refine loadBatchesLoop_NE bs _ ?_
      intro kv hkv
      simp only [hl] at hkv
      rcases mem_aupdate m b.timestamp (fun q => q ++ [b]) kv hkv with h | ⟨w, hw⟩
      · exact hm kv h
      · rw [hw]
        simp
    | none =>
      refine loadBatchesLoop_NE bs _ ?_
      intro kv hkv
      simp only [hl] at hkv
      rw [aupdate_append_single m b.timestamp [] (fun q => q ++ [b]) hl] at hkv
      rcases List.mem_append.mp hkv with h | h
      · exact hm kv h
      · simp only [List.mem_singleton] at h
        rw [h]
        simp

lemma getBlockCandidate_NE {Tx : Type} (decode : List Nat → Option Tx)
    (q : BatchQueue) (h : L2BlockRef) (r : Option (L2BlockCandidate Tx)) (q' : BatchQueue)
    (hok : q.getBlockCandidate decode h = .ok (r, q')) (hq : entriesNE q) : entriesNE q' := by
  unfold BatchQueue.getBlockCandidate at hok
  cases hAL : alookup q.batches (h.time + L2_BLOCK_TIME) with
  | none =>
    simp only [hAL] at hok
    cases hok
    exact hq
  | some candidates =>
    simp only [hAL] at hok
    cases hh : candidates.head? with
    | none =>
      simp only [hh] at hok
      exact Except.noConfusion hok
    | some out =>
      simp only [hh] at hok
      cases hd : decodeAll decode out.transactions with
      | error e =>
        rw [hd, ebind_error] at hok
        exact Except.noConfusion hok
      | ok txs =>
        rw [hd, ebind_ok] at hok
        cases hok
        intro kv hkv
        exact hq kv (mem_aerase _ _ _ hkv)

lemma runOps_NE {Tx : Type} (decode : List Nat → Option Tx) :
    ∀ (ops : List QueueOp) (q0 q : BatchQueue),
    BatchQueue.runOps decode q0 ops = .ok q → entriesNE q0 → entriesNE q
  | [], q0, q, hok, h0 => by
    cases hok
    exact h0
  | op :: ops, q0, q, hok, h0 => by
    unfold BatchQueue.runOps at hok
    cases hstep : q0.step decode op with
    | error e =>
      rw [hstep, ebind_error] at hok
      exact Except.noConfusion hok
    | ok q1 =>
      rw [hstep, ebind_ok] at hok
      refine runOps_NE decode ops q1 q hok ?_
      cases op with
      | load bs o =>
        cases hstep
        intro kv hkv
        exact loadBatchesLoop_NE bs q0.batches h0 kv hkv
      | get h =>
        simp only [BatchQueue.step] at hstep
        cases hg : q0.getBlockCandidate decode h with
        | error e =>
          rw [hg] at hstep
          simp [Except.map] at hstep
        | ok rq =>
          rw [hg] at hstep
          simp only [Except.map] at hstep
          cases hstep
          exact getBlockCandidate_NE decode q0 h rq.1 rq.2 (by rw [hg]) h0

/-- C6: in every batch-queue state built by the public operations, with
t = l2_head.time + 2: if no entry exists for t, get_block_candidate returns
None and leaves the state unchanged; if an entry exists it is nonempty, and
(provided its front batch decodes) the call returns
Some(L2BlockCandidate with number = head.number + 1, timestamp = t, and the
front batch's decoded transactions) and removes the whole entry for t
(discarding any later batches stored for that timestamp). -/
theorem get_block_candidate_spec {Tx : Type} (decode : List Nat → Option Tx)
    (ops : List QueueOp) (q : BatchQueue)
    (hq : BatchQueue.runOps decode BatchQueue.default ops = .ok q)
    (l2Head : L2BlockRef) :
    (alookup q.batches (l2Head.time + L2_BLOCK_TIME) = none →
      q.getBlockCandidate decode l2Head = .ok (none, q)) ∧
    (∀ l, alookup q.batches (l2Head.time + L2_BLOCK_TIME) = some l →
      ∃ b rest, l = b :: rest ∧
        ∀ txs, decodeAll decode b.transactions = .ok txs →
          q.getBlockCandidate decode l2Head =
            .ok (some { number := l2Head.number + 1
                        timestamp := l2Head.time + L2_BLOCK_TIME
                        transactions := txs },
                  { l1Blocks := q.l1Blocks
                    batches := aerase q.batches (l2Head.time + L2_BLOCK_TIME) })) := by
  have hNE : entriesNE q := runOps_NE decode ops BatchQueue.default q hq (by
    intro kv hkv
    simp [BatchQueue.default] at hkv)
  constructor
  · intro hnone
    unfold BatchQueue.getBlockCandidate
    simp only [hnone]
  · intro l hl
    have hmem := hNE _ (alookup_mem _ _ _ hl)
    cases l with
    | nil => cases hmem rfl
    | cons b rest =>
      refine ⟨b, rest, rfl, ?_⟩
      intro txs htxs
      unfold BatchQueue.getBlockCandidate
      simp only [hl, List.head?_cons, htxs, ebind_ok]

def c6Batch : Batch := { timestamp := 2, transactions := [[5]] }

def c6Origin : L1BlockRef := { hash := 0, number := 0, parentHash := 0, time := 0 }

def c6Head : L2BlockRef := { hash := 0, number := 7, time := 0 }

def c6Ops : List QueueOp := [QueueOp.load [c6Batch] c6Origin]

def c6Decode : List Nat → Option Nat := fun t => some t.length

def c6Queue : BatchQueue := { l1Blocks := [c6Origin], batches := [(2, [c6Batch])] }

/-- C6 witness: one load_batches call stores a batch for timestamp 2; asking
for the block after an L2 head at time 0 emits it and drops the entry. -/
theorem get_block_candidate_spec_witness :
    c6Queue.getBlockCandidate c6Decode c6Head =
      .ok (some { number := 8, timestamp := 2, transactions := [1] },
            { l1Blocks := [c6Origin], batches := [] }) := by
  obtain ⟨b, rest, hbr, himp⟩ :=
    (get_block_candidate_spec c6Decode c6Ops c6Queue rfl c6Head).2 [c6Batch] rfl
  injection hbr with hb hr
  subst hb
  subst hr
  exact himp [1] rfl

/-! ## C5: get_channel_data consumes exactly the ready head channel -/

lemma collectData_ok (m : List (Nat × Frame)) :
    ∀ l : List Nat, (∀ i ∈ l, acontains m i = true) →
    ∃ d, collectData m l = .ok d
  | [], _ => ⟨[], rfl⟩
  | i :: rest, h => by
    have hi : acontains m i = true := h i (by simp)
    unfold acontains at hi
    cases hal : alookup m i with
    | none =>
      rw [hal] at hi
      simp at hi
    | some f =>
      obtain ⟨d, hd⟩ := collectData_ok m rest (fun j hj => h j (by simp [hj]))
      refine ⟨f.data ++ d, ?_⟩
      unfold collectData
      rw [hal, hd]
      rfl

lemma ready_data (c : Channel) (h : c.isReady = true) : ∃ d, c.data = .ok d := by
  unfold Channel.isReady at h
  cases he : c.endFrameNumber with
  | none =>
    rw [he] at h
    cases h
  | some last =>
    rw [he] at h
    unfold Channel.data
    rw [he]
    refine collectData_ok c.frames (List.range (last + 1)) ?_
    intro i hi
    exact List.all_eq_true.mp h i hi

/-- C5: for every channel-bank state: when there is no head channel,
get_channel_data returns None and changes nothing; when the head channel is
not ready it returns None and changes nothing (even if a younger channel is
ready); when the head channel is ready it is removed, and the call returns its
concatenated data when it is not timed out and None when it is. -/
theorem get_channel_data_spec (b : ChannelBank) :
    (b.peek = none → b.getChannelData = .ok (none, b)) ∧
    (∀ c, b.peek = some c →
      (c.isReady = false → b.getChannelData = .ok (none, b)) ∧
      (c.isReady = true → c.isTimedOut = true →
        ∃ b', b.remove = some (c, b') ∧ b.getChannelData = .ok (none, b')) ∧
      (c.isReady = true → c.isTimedOut = false →
        ∃ d b', c.data = .ok d ∧ b.remove = some (c, b') ∧
          b.getChannelData = .ok (some d, b'))) := by
  constructor
  · intro hp
    unfold ChannelBank.getChannelData
    rw [hp]
  · intro c hp
    have hp0 := hp
    unfold ChannelBank.peek at hp0
    cases horder : b.channelsByCreation with
    | nil =>
      simp only [horder] at hp0
      exact Option.noConfusion hp0
    | cons id rest =>
      simp only [horder] at hp0
      have hrem : b.remove =
          some (c, { channelsMap := aerase b.channelsMap id, channelsByCreation := rest }) := by
        unfold ChannelBank.remove
        simp only [horder, hp0]
      refine ⟨?_, ?_, ?_⟩
      · intro hnr
        unfold ChannelBank.getChannelData
        rw [hp]
        simp [hnr]
      · intro hready htimed
        refine ⟨_, hrem, ?_⟩
        unfold ChannelBank.getChannelData
        rw [hp]
        simp only [hready, if_true]
        rw [hrem]
        simp only [htimed, if_true]
      · intro hready htimed
        obtain ⟨d, hd⟩ := ready_data c hready
        refine ⟨d, _, hd, hrem, ?_⟩
        unfold ChannelBank.getChannelData
        rw [hp]
        simp only [hready, if_true]
        rw [hrem]
        simp only [htimed]
        rw [hd]
        rfl

def c5Frame : Frame := { id := 1, number := 0, data := [42], isLast := true }

def c5Channel : Channel := (Channel.new 1 exBlock).loadFrame c5Frame exBlock

def c5Bank : ChannelBank := { channelsMap := [(1, c5Channel)], channelsByCreation := [1] }

/-- C5 witness: a bank whose single channel is ready (one closing frame number
0) and not timed out: get_channel_data returns its data and removes it. -/
theorem get_channel_data_spec_witness :
    ∃ d b', c5Channel.data = .ok d ∧ c5Bank.remove = some (c5Channel, b') ∧
      c5Bank.getChannelData = .ok (some d, b') :=
  ((get_channel_data_spec c5Bank).2 c5Channel rfl).2.2 rfl rfl

/-! ## C4: the channel bank never exceeds MAX_CHANNEL_BANK_SIZE -/

lemma aerase_sum_le {α : Type} (f : α → Nat) :
    ∀ (m : List (Nat × α)) (k : Nat),
    ((aerase m k).map (fun kv => f kv.2)).sum ≤ (m.map (fun kv => f kv.2)).sum
  | [], _ => Nat.le_refl _
  | (k0, w) :: rest, k => by
    by_cases hk : k0 = k
    · have hr : aerase ((k0, w) :: rest) k = rest := by simp [aerase, hk]
      rw [hr]
      simp only [List.map_cons, List.sum_cons]
      omega
    · have hr : aerase ((k0, w) :: rest) k = (k0, w) :: aerase rest k := by simp [aerase, hk]
      rw [hr]
      simp only [List.map_cons, List.sum_cons]
      have := aerase_sum_le f rest k
      omega

lemma pruneAux_bound : ∀ (o : List Nat) (m : List (Nat × Channel)) (m' : List (Nat × Channel))
    (o' : List Nat), pruneAux m o = .ok (m', o') →
    ((m'.map (fun kv => kv.2.size)).sum ≤ MAX_CHANNEL_BANK_SIZE)
  | [], m, m', o', h => by
    unfold pruneAux at h
    by_cases hgt : (m.map (fun kv => kv.2.size)).sum > MAX_CHANNEL_BANK_SIZE
    · simp only [hgt, if_true] at h
      exact Except.noConfusion h
    · simp only [hgt, if_false] at h
      cases h
      omega
  | id :: o, m, m', o', h => by
    unfold pruneAux at h
    by_cases hgt : (m.map (fun kv => kv.2.size)).sum > MAX_CHANNEL_BANK_SIZE
    · simp only [hgt, if_true] at h
      cases hal : alookup m id with
      | none =>
        simp only [hal] at h
        exact Except.noConfusion h
      | some ch =>
        simp only [hal] at h
        exact pruneAux_bound o (aerase m id) m' o' h
    · simp only [hgt, if_false] at h
      cases h
      omega

lemma prune_bound (b1 b' : ChannelBank) (h : b1.prune = .ok b') :
    b'.totalSize ≤ MAX_CHANNEL_BANK_SIZE := by
  unfold ChannelBank.prune at h
  cases hp : pruneAux b1.channelsMap b1.channelsByCreation with
  | error e =>
    rw [hp, ebind_error] at h
    exact Except.noConfusion h
  | ok mo =>
    rw [hp, ebind_ok] at h
    cases h
    exact pruneAux_bound b1.channelsByCreation b1.channelsMap mo.1 mo.2 (by rw [hp])

lemma loadFrame_bound (b : ChannelBank) (f : Frame) (l1 : BlockID) (b' : ChannelBank)
    (h : b.loadFrame f l1 = .ok b') : b'.totalSize ≤ MAX_CHANNEL_BANK_SIZE := by
  unfold ChannelBank.loadFrame at h
  by_cases hc : (b.peek.map Channel.isReady).getD false = true
  · simp only [hc, if_true] at h
    exact Except.noConfusion h
  · simp only [hc, if_false] at h
    exact prune_bound _ _ h

lemma loadFrames_bound : ∀ (fs : List Frame) (b : ChannelBank) (l1 : BlockID) (b' : ChannelBank),
    b.totalSize ≤ MAX_CHANNEL_BANK_SIZE → b.loadFrames fs l1 = .ok b' →
    b'.totalSize ≤ MAX_CHANNEL_BANK_SIZE
  | [], b, l1, b', hb, h => by
    cases h
    exact hb
  | f :: fs, b, l1, b', hb, h => by
    unfold ChannelBank.loadFrames at h
    cases hlf : b.loadFrame f l1 with
    | error e =>
      rw [hlf, ebind_error] at h
      exact Except.noConfusion h
    | ok b1 =>
      rw [hlf, ebind_ok] at h
      exact loadFrames_bound fs b1 l1 b' (loadFrame_bound b f l1 b1 hlf) h

lemma getChannelData_size_le (b : ChannelBank) (r : Option (List Nat)) (b' : ChannelBank)
    (h : b.getChannelData = .ok (r, b')) : b'.totalSize ≤ b.totalSize := by
  rcases (get_channel_data_spec b) with ⟨hnone, hsome⟩
  cases hp : b.peek with
  | none =>
    rw [hnone hp] at h
    cases h
    exact Nat.le_refl _
  | some c =>
    obtain ⟨hnr, hto, hok⟩ := hsome c hp
    have hremle : ∀ b2 : ChannelBank, b.remove = some (c, b2) → b2.totalSize ≤ b.totalSize := by
      intro b2 hrem
      unfold ChannelBank.remove at hrem
      cases horder : b.channelsByCreation with
      | nil =>
        simp only [horder] at hrem
        exact Option.noConfusion hrem
      | cons id rest =>
        simp only [horder] at hrem
        cases hal : alookup b.channelsMap id with
        | none =>
          simp only [hal] at hrem
          exact Option.noConfusion hrem
        | some c0 =>
          simp only [hal] at hrem
          injection hrem with hpair
          injection hpair with hc hb2
          rw [← hb2]
          exact aerase_sum_le (fun ch => ch.size) b.channelsMap id
    cases hready : c.isReady with
    | false =>
      rw [hnr hready] at h
      cases h
      exact Nat.le_refl _
    | true =>
      cases htimed : c.isTimedOut with
      | true =>
        obtain ⟨b2, hrem, heq⟩ := hto hready htimed
        rw [heq] at h
        cases h
        exact hremle _ hrem
      | false =>
        obtain ⟨d, b2, hd, hrem, heq⟩ := hok hready htimed
        rw [heq] at h
        cases h
        exact hremle _ hrem

/-- C4: after any sequence of the public load_frames / get_channel_data
operations from an empty bank, the summed size of the live channels stays at
or below MAX_CHANNEL_BANK_SIZE = 100000000 (prune removes oldest channels
after each frame until the total is within the cap). -/
theorem bank_total_size_bounded (ops : List BankOp) (b : ChannelBank)
    (hb : ChannelBank.runOps ChannelBank.default ops = .ok b) :
    MAX_CHANNEL_BANK_SIZE = 100000000 ∧ b.totalSize ≤ MAX_CHANNEL_BANK_SIZE := by
  refine ⟨rfl, ?_⟩
  have key : ∀ (l : List BankOp) (b0 b1 : ChannelBank),
      b0.totalSize ≤ MAX_CHANNEL_BANK_SIZE → ChannelBank.runOps b0 l = .ok b1 →
      b1.totalSize ≤ MAX_CHANNEL_BANK_SIZE := by
    intro l
    induction l with
    | nil =>
      intro b0 b1 h0 h
      cases h
      exact h0
    | cons op rest ih =>
      intro b0 b1 h0 h
      unfold ChannelBank.runOps at h
      cases hstep : b0.step op with
      | error e =>
        rw [hstep, ebind_error] at h
        exact Except.noConfusion h
      | ok b2 =>
        rw [hstep, ebind_ok] at h
        refine ih b2 b1 ?_ h
        cases op with
        | load fs l1 =>
          cases fs with
          | nil =>
            cases hstep
            exact h0
          | cons f fs =>
            exact loadFrames_bound (f :: fs) b0 l1 b2 h0 hstep
        | get =>
          unfold ChannelBank.step at hstep
          cases hg : b0.getChannelData with
          | error e =>
            rw [hg] at hstep
            simp [Except.map] at hstep
          | ok rb =>
            rw [hg] at hstep
            simp only [Except.map] at hstep
            cases hstep
            exact Nat.le_trans (getChannelData_size_le b0 rb.1 rb.2 (by rw [hg])) h0
  exact key ops ChannelBank.default b (by
    unfold ChannelBank.totalSize ChannelBank.default
    simp) hb

/-- C4 witness: loading one small frame keeps the bank within the cap. -/
theorem bank_total_size_bounded_witness :
    MAX_CHANNEL_BANK_SIZE = 100000000 ∧
      ChannelBank.totalSize c5Bank ≤ MAX_CHANNEL_BANK_SIZE :=
  bank_total_size_bounded [BankOp.load [c5Frame] exBlock] c5Bank (by rfl)

/-! ## C8: MPT insertion under distinct keys

The development below characterises Node::insert: it fails exactly on a key
already present, and succeeds on any fresh key that is prefix-incomparable
with the stored keys.  (Prefix-comparable distinct keys can abort, see the
counterexample; the intended MPT keys, RLP-encoded indices, are prefix-free.) -/

lemma matchPaths_decomp : ∀ (k p : List Nat),
    k = (matchPaths k p).1 ++ (matchPaths k p).2.1 ∧
    p = (matchPaths k p).1 ++ (matchPaths k p).2.2
  | [], p => by cases p <;> simp [matchPaths]
  | a :: k, [] => by simp [matchPaths]
  | a :: k, b :: p => by
    by_cases hab : a = b
    · subst hab
      have ih := matchPaths_decomp k p
      constructor
      · simp only [matchPaths, if_pos rfl]
        conv_lhs => rw [ih.1]
        simp
      · simp only [matchPaths, if_pos rfl]
        conv_lhs => rw [ih.2]
        simp
    · simp [matchPaths, hab]

lemma matchPaths_self : ∀ (p r : List Nat), matchPaths (p ++ r) p = (p, r, [])
  | [], r => by cases r <;> simp [matchPaths]
  | a :: p, r => by simp [matchPaths, matchPaths_self p r]

lemma matchPaths_nk_len (k p : List Nat) : (matchPaths k p).2.1.length ≤ k.length := by
  conv_rhs => rw [(matchPaths_decomp k p).1]
  simp

/-- The key list of a branch node, by its parts. -/
def keysB (cs : List Node) (bv : Option ValueN) : List (List Nat) :=
  (match bv with
    | some _ => [[]]
    | none => []) ++ keysChildren cs 0

lemma keys_branch (cs : List Node) (bv : Option ValueN) (hsh : Option Nat) :
    Node.keys (.branch cs bv hsh) = keysB cs bv := by
  simp [Node.keys, keysB]

lemma keys_value (v : ValueN) : Node.keys (.value v) = [[]] := by
  simp [Node.keys]

lemma keys_empty : Node.keys .empty = [] := by
  simp [Node.keys]

lemma keys_ext (p : List Nat) (c : Node) (hsh : Option Nat) :
    Node.keys (.extension p c hsh) = (Node.keys c).map (fun t => p ++ t) := by
  simp [Node.keys]

lemma mem_keysChildren : ∀ (cs : List Node) (j : Nat) (t : List Nat),
    t ∈ keysChildren cs j ↔
      ∃ i rest, i < cs.length ∧ t = (j + i) :: rest ∧ rest ∈ Node.keys (cs.getD i Node.empty)
  | [], j, t => by simp [keysChildren]
  | c :: cs, j, t => by
    simp only [keysChildren]
    rw [List.mem_append]
    constructor
    · intro h
      rcases h with h | h
      · simp only [List.mem_map] at h
        obtain ⟨rest, hrest, ht⟩ := h
        exact ⟨0, rest, by simp, by simp [← ht], by simpa using hrest⟩
      · obtain ⟨i, rest, hi, ht, hrest⟩ := (mem_keysChildren cs (j + 1) t).mp h
        refine ⟨i + 1, rest, by simpa using hi, ?_, by simpa using hrest⟩
        rw [ht]
        congr 1
        omega
    · rintro ⟨i, rest, hi, ht, hrest⟩
      cases i with
      | zero =>
        left
        simp only [List.mem_map]
        exact ⟨rest, by simpa using hrest, by simp [ht]⟩
      | succ i =>
        right
        refine (mem_keysChildren cs (j + 1) t).mpr ⟨i, rest, by simpa using hi, ?_, by simpa using hrest⟩
        rw [ht]
        congr 1
        omega

lemma mem_keysB (cs : List Node) (bv : Option ValueN) (t : List Nat) :
    t ∈ keysB cs bv ↔
      (t = [] ∧ bv.isSome = true) ∨
      ∃ i rest, i < cs.length ∧ t = i :: rest ∧ rest ∈ Node.keys (cs.getD i Node.empty) := by
  unfold keysB
  rw [List.mem_append, mem_keysChildren]
  cases bv with
  | none => simp
  | some w => simp

lemma getD_set_self (l : List Node) (i : Nat) (a : Node) (h : i < l.length) :
    (l.set i a).getD i Node.empty = a := by
  simp [List.getD_eq_getElem?_getD, List.getElem?_set_self, h]

lemma getD_set_ne (l : List Node) (i j : Nat) (a : Node) (h : j ≠ i) :
    (l.set i a).getD j Node.empty = l.getD j Node.empty := by
  simp [List.getD_eq_getElem?_getD, List.getElem?_set_ne (by omega : i ≠ j)]

lemma getD_emptyChildren (j : Nat) : emptyChildren.getD j Node.empty = Node.empty := by
  rw [List.getD_eq_getElem?_getD]
  rw [show emptyChildren = List.replicate 16 Node.empty from rfl]
  rw [List.getElem?_replicate]
  split <;> rfl

lemma getD_mem_of_lt (l : List Node) (i : Nat) (h : i < l.length) :
    l.getD i Node.empty ∈ l := by
  rw [List.getD_eq_getElem l Node.empty h]
  exact List.getElem_mem h

/-- Prefix incomparability of two keys (in particular they are distinct). -/
def Incomp (a b : List Nat) : Prop :=
  ¬ a <+: b ∧ ¬ b <+: a

lemma incomp_cons (i : Nat) (a b : List Nat) (h : Incomp (i :: a) (i :: b)) : Incomp a b := by
  constructor
  · intro hab
    exact h.1 (List.cons_prefix_cons.mpr ⟨rfl, hab⟩)
  · intro hba
    exact h.2 (List.cons_prefix_cons.mpr ⟨rfl, hba⟩)

lemma incomp_append (s a b : List Nat) (h : Incomp (s ++ a) (s ++ b)) : Incomp a b := by
  constructor
  · intro hab
    exact h.1 ((List.prefix_append_right_inj s).mpr hab)
  · intro hba
    exact h.2 ((List.prefix_append_right_inj s).mpr hba)

def NibbleValid (k : List Nat) : Prop :=
  ∀ x ∈ k, x < 16

lemma keys_newWithNode (q : List Nat) (c : Node) :
    Node.keys (Node.newWithNode q c) = (Node.keys c).map (fun t => q ++ t) := by
  unfold Node.newWithNode
  cases q with
  | nil => simp
  | cons a q => simp [Node.keys]

lemma wf_newWithNode (q : List Nat) (c : Node) (hq : ∀ x ∈ q, x < 16)
    (hc : isBranchOrValue c) (hwc : Wf c) (hne : Node.keys c ≠ []) :
    Wf (Node.newWithNode q c) := by
  unfold Node.newWithNode
  cases q with
  | nil => exact hwc
  | cons a q => exact Wf.extension _ _ _ (by simp) hq hc hwc hne

lemma wf_branch_inv {cs : List Node} {bv : Option ValueN} {hsh : Option Nat}
    (h : Wf (.branch cs bv hsh)) : cs.length = 16 ∧ ∀ c ∈ cs, Wf c := by
  cases h with
  | branch cs bv hsh h1 h2 => exact ⟨h1, h2⟩

lemma wf_ext_inv {pn : List Nat} {c : Node} {hsh : Option Nat}
    (h : Wf (.extension pn c hsh)) :
    pn ≠ [] ∧ (∀ x ∈ pn, x < 16) ∧ isBranchOrValue c ∧ Wf c ∧ Node.keys c ≠ [] := by
  cases h with
  | extension pn c hsh h1 h2 h3 h4 h5 => exact ⟨h1, h2, h3, h4, h5⟩

/-- Inserting a key already present in the trie always panics (value-node
case, equal-paths case, or the branch_value unwrap). -/
lemma insert_dup_main : ∀ fuel : Nat,
    (∀ (cs : List Node) (bv : Option ValueN) (hsh : Option Nat) (k v : List Nat),
      2 * k.length + 1 ≤ fuel → k ∈ keysB cs bv →
      (∃ e, branchInsertF fuel cs bv hsh k v = .error e) ∨
        branchInsertF fuel cs bv hsh k v = .ok none) ∧
    (∀ (n : Node) (k v : List Nat),
      2 * k.length + 2 ≤ fuel → k ∈ Node.keys n →
      ∃ e, Node.insertF fuel n k v = .error e) := by
  intro fuel
  induction fuel with
  | zero =>
    constructor
    · intro cs bv hsh k v hf
      omega
    · intro n k v hf
      omega
  | succ fuel ih =>
    constructor
    · intro cs bv hsh k v hf hk
      cases k with
      | nil =>
        rcases (mem_keysB cs bv []).mp hk with ⟨_, hbv⟩ | ⟨i, rest, _, hcons, _⟩
        · cases bv with
          | none => simp at hbv
          | some w =>
            right
            simp [branchInsertF]
        · exact absurd hcons (by simp)
      | cons i rest =>
        rcases (mem_keysB cs bv (i :: rest)).mp hk with ⟨hnil, _⟩ | ⟨i', rest', hi', hcons, hrest'⟩
        · simp at hnil
        · injection hcons with h1 h2
          subst h1
          subst h2
          obtain ⟨e, he⟩ := ih.2 (cs.getD i Node.empty) rest v (by simp at hf ⊢; omega) hrest'
          left
          exact ⟨e, by simp only [branchInsertF, he]⟩
    · intro n k v hf hk
      cases n with
      | empty =>
        rw [keys_empty] at hk
        simp at hk
      | value v0 =>
        exact ⟨msgValueInsert, by simp [Node.insertF]⟩
      | branch cs bv hsh =>
        rw [keys_branch] at hk
        rcases ih.1 cs bv hsh k v (by omega) hk with ⟨e, he⟩ | he
        · exact ⟨e, by simp [Node.insertF, he]⟩
        · exact ⟨msgUnwrapNone, by simp [Node.insertF, he]⟩
      | extension pn c hsh =>
        rw [keys_ext] at hk
        simp only [List.mem_map] at hk
        obtain ⟨k', hk', hkeq⟩ := hk
        subst hkeq
        have hmp := matchPaths_self pn k'
        cases k' with
        | nil =>
          refine ⟨msgSamePaths, ?_⟩
          have hmp' : matchPaths pn pn = (pn, [], []) := by simpa using hmp
          simp [Node.insertF, hmp']
        | cons a k'' =>
          cases c with
          | empty =>
            rw [keys_empty] at hk'
            simp at hk'
          | extension q cc hh =>
            exact ⟨msgExtChild, by simp [Node.insertF, hmp]⟩
          | value vn =>
            rw [keys_value] at hk'
            simp at hk'
          | branch ccs cbv cbh =>
            rw [keys_branch] at hk'
            have hlen : (a :: k'').length ≤ (pn ++ a :: k'').length := by simp
            rcases ih.1 ccs cbv cbh (a :: k'') v (by simp at hf hlen ⊢; omega) hk' with ⟨e, he⟩ | he
            · exact ⟨e, by simp [Node.insertF, hmp, he]⟩
            · exact ⟨msgUnwrapNone, by simp [Node.insertF, hmp, he]⟩

lemma isEmpty_false {l : List Nat} (h : l ≠ []) : l.isEmpty = false := by
  cases l with
  | nil => exact absurd rfl h
  | cons a l => rfl

/-- Inserting a fresh key that is prefix-incomparable with every stored key
succeeds, preserves well-formedness, and adds exactly that key. -/
lemma insert_fresh_main : ∀ fuel : Nat,
    (∀ (cs : List Node) (bv : Option ValueN) (hsh : Option Nat) (k v : List Nat),
      2 * k.length + 1 ≤ fuel → cs.length = 16 → (∀ c ∈ cs, Wf c) → NibbleValid k →
      (∀ t ∈ keysB cs bv, Incomp k t) →
      ∃ cs' bv', branchInsertF fuel cs bv hsh k v = .ok (some (.branch cs' bv' hsh)) ∧
        cs'.length = 16 ∧ (∀ c ∈ cs', Wf c) ∧
        (∀ m, m ∈ keysB cs' bv' ↔ m ∈ keysB cs bv ∨ m = k)) ∧
    (∀ (n : Node) (k v : List Nat),
      2 * k.length + 2 ≤ fuel → Wf n → NibbleValid k →
      (∀ t ∈ Node.keys n, Incomp k t) →
      ∃ n', Node.insertF fuel n k v = .ok n' ∧ Wf n' ∧
        (∀ m, m ∈ Node.keys n' ↔ m ∈ Node.keys n ∨ m = k)) := by
  intro fuel
  induction fuel with
  | zero =>
    constructor
    · intro cs bv hsh k v hf
      omega
    · intro n k v hf
      omega
  | succ fuel ih =>
    constructor
    · -- branchInsertF
      intro cs bv hsh k v hf hlen hwf hval hinc
      cases k with
      | nil =>
        have hbv : bv = none := by
          cases bv with
          | none => rfl
          | some w =>
            exfalso
            have h0 : ([] : List Nat) ∈ keysB cs (some w) :=
              (mem_keysB cs (some w) []).mpr (Or.inl ⟨rfl, rfl⟩)
            exact (hinc [] h0).1 ⟨[], rfl⟩
        subst hbv
        refine ⟨cs, some (ValueN.new v), rfl, hlen, hwf, ?_⟩
        intro m
        rw [mem_keysB, mem_keysB]
        constructor
        · rintro (⟨hm0, _⟩ | h)
          · exact Or.inr hm0
          · exact Or.inl (Or.inr h)
        · rintro ((⟨hm0, hfalse⟩ | h) | hm0)
          · simp at hfalse
          · exact Or.inr h
          · exact Or.inl ⟨hm0, rfl⟩
      | cons i rest =>
        have hi : i < cs.length := by
          rw [hlen]
          exact hval i (by simp)
        have hwfc : Wf (cs.getD i Node.empty) := hwf _ (getD_mem_of_lt cs i hi)
        have hincc : ∀ t ∈ Node.keys (cs.getD i Node.empty), Incomp rest t := by
          intro t ht
          refine incomp_cons i rest t (hinc (i :: t) ?_)
          exact (mem_keysB cs bv _).mpr (Or.inr ⟨i, t, hi, rfl, ht⟩)
        obtain ⟨c', hc', hwfc', hkeysc'⟩ := ih.2 (cs.getD i Node.empty) rest v
          (by simp at hf ⊢; omega) hwfc (fun x hx => hval x (by simp [hx])) hincc
        refine ⟨cs.set i c', bv, ?_, by simp [hlen], ?_, ?_⟩
        · simp only [branchInsertF, hc']
        · intro c hcmem
          rcases List.mem_or_eq_of_mem_set hcmem with h | h
          · exact hwf c h
          · rw [h]
            exact hwfc'
        · intro m
          constructor
          · intro hm
            rcases (mem_keysB _ _ _).mp hm with ⟨hm0, hbv⟩ | ⟨j, r, hj, hmr, hr⟩
            · exact Or.inl ((mem_keysB _ _ _).mpr (Or.inl ⟨hm0, hbv⟩))
            · rw [List.length_set] at hj
              by_cases hji : j = i
              · subst hji
                rw [getD_set_self cs j c' hj] at hr
                rcases (hkeysc' r).mp hr with h | h
                · exact Or.inl ((mem_keysB _ _ _).mpr (Or.inr ⟨j, r, hj, hmr, h⟩))
                · subst h
                  exact Or.inr hmr
              · rw [getD_set_ne cs i j c' hji] at hr
                exact Or.inl ((mem_keysB _ _ _).mpr (Or.inr ⟨j, r, hj, hmr, hr⟩))
          · intro hm
            rcases hm with hm | hm
            · rcases (mem_keysB _ _ _).mp hm with ⟨hm0, hbv⟩ | ⟨j, r, hj, hmr, hr⟩
              · exact (mem_keysB _ _ _).mpr (Or.inl ⟨hm0, hbv⟩)
              · by_cases hji : j = i
                · subst hji
                  refine (mem_keysB _ _ _).mpr (Or.inr ⟨j, r, by simpa using hj, hmr, ?_⟩)
                  rw [getD_set_self cs j c' hj]
                  exact (hkeysc' r).mpr (Or.inl hr)
                · refine (mem_keysB _ _ _).mpr (Or.inr ⟨j, r, by simpa using hj, hmr, ?_⟩)
                  rw [getD_set_ne cs i j c' hji]
                  exact hr
            · subst hm
              refine (mem_keysB _ _ _).mpr (Or.inr ⟨i, rest, by simpa using hi, rfl, ?_⟩)
              rw [getD_set_self cs i c' hi]
              exact (hkeysc' rest).mpr (Or.inr rfl)
    · -- Node.insertF
      intro n k v hf hwf hval hinc
      cases n with
      | empty =>
        refine ⟨Node.new k v, by simp only [Node.insertF], ?_, ?_⟩
        · cases k with
          | nil => exact Wf.value _
          | cons a k0 =>
            exact Wf.extension _ _ _ (by simp) hval (by simp [isBranchOrValue]) (Wf.value _)
              (by simp [keys_value])
        · intro m
          rw [keys_empty]
          cases k with
          | nil =>
            show m ∈ Node.keys (.value (ValueN.new v)) ↔ _
            rw [keys_value]
            simp
          | cons a k0 =>
            show m ∈ Node.keys (.extension (a :: k0) (.value (ValueN.new v)) none) ↔ _
            rw [keys_ext, keys_value]
            simp
      | value v0 =>
        exfalso
        have h0 : ([] : List Nat) ∈ Node.keys (.value v0) := by
          rw [keys_value]
          simp
        exact (hinc [] h0).2 ⟨k, rfl⟩
      | branch cs bv hsh =>
        obtain ⟨hlen, hwfc⟩ := wf_branch_inv hwf
        obtain ⟨cs', bv', heq, hlen', hwf', hkeys'⟩ := ih.1 cs bv hsh k v (by omega) hlen hwfc
          hval (by
            intro t ht
            exact hinc t (by rw [keys_branch]; exact ht))
        refine ⟨.branch cs' bv' hsh, ?_, Wf.branch _ _ _ hlen' hwf', ?_⟩
        · simp only [Node.insertF, heq]
        · intro m
          rw [keys_branch, keys_branch]
          exact hkeys' m
      | extension pn c hsh =>
        obtain ⟨hp, hvalp, hbvc, hwc, hnec⟩ := wf_ext_inv hwf
        obtain ⟨⟨common, nk, op⟩, hMP⟩ : ∃ x, matchPaths k pn = x := ⟨_, rfl⟩
        have hk_eq : k = common ++ nk := by
          have h := (matchPaths_decomp k pn).1
          rw [hMP] at h
          exact h
        have hpn_eq : pn = common ++ op := by
          have h := (matchPaths_decomp k pn).2
          rw [hMP] at h
          exact h
        cases op with
        | nil =>
          have hpn_common : pn = common := by simpa using hpn_eq
          subst hpn_common
          cases nk with
          | nil =>
            exfalso
            obtain ⟨t0, ht0⟩ : ∃ t0, t0 ∈ Node.keys c := by
              cases hKc : Node.keys c with
              | nil => exact absurd hKc hnec
              | cons t0 ts => exact ⟨t0, by simp⟩
            have hmem : pn ++ t0 ∈ Node.keys (.extension pn c hsh) := by
              rw [keys_ext]
              exact List.mem_map.mpr ⟨t0, ht0, rfl⟩
            refine (hinc _ hmem).1 ?_
            rw [hk_eq]
            exact ⟨t0, by simp⟩
          | cons a nk' =>
            cases c with
            | empty => exact absurd keys_empty hnec
            | extension q cc hh => exact absurd hbvc (by simp [isBranchOrValue])
            | value vn =>
              exfalso
              have hmem : pn ++ [] ∈ Node.keys (.extension pn (.value vn) hsh) := by
                rw [keys_ext]
                exact List.mem_map.mpr ⟨[], by rw [keys_value]; simp, rfl⟩
              refine (hinc _ hmem).2 ?_
              rw [hk_eq]
              exact ⟨a :: nk', by simp⟩
            | branch ccs cbv cbh =>
              obtain ⟨hclen, hcwf⟩ := wf_branch_inv hwc
              have hinc' : ∀ t ∈ keysB ccs cbv, Incomp (a :: nk') t := by
                intro t ht
                have hmem : pn ++ t ∈ Node.keys (.extension pn (.branch ccs cbv cbh) hsh) := by
                  rw [keys_ext]
                  refine List.mem_map.mpr ⟨t, ?_, rfl⟩
                  rw [keys_branch]
                  exact ht
                have h2 := hinc _ hmem
                rw [hk_eq] at h2
                exact incomp_append pn _ _ h2
              have hlen2 : (a :: nk').length ≤ k.length := by
                rw [hk_eq]
                simp
              obtain ⟨cs', bv', heq, hlen', hwf', hkeys'⟩ := ih.1 ccs cbv cbh (a :: nk') v
                (by omega) hclen hcwf (fun x hx => hval x (by rw [hk_eq]; simp [hx])) hinc'
              refine ⟨.extension pn (.branch cs' bv' cbh) none, ?_, ?_, ?_⟩
              · simp [Node.insertF, hMP, heq, isEmpty_false hp]
              · refine Wf.extension _ _ _ hp hvalp (by simp [isBranchOrValue])
                  (Wf.branch _ _ _ hlen' hwf') ?_
                rw [keys_branch]
                exact List.ne_nil_of_mem ((hkeys' _).mpr (Or.inr rfl))
              · intro m
                rw [keys_ext, keys_ext, keys_branch, keys_branch]
                simp only [List.mem_map]
                constructor
                · rintro ⟨t, ht, hmt⟩
                  rcases (hkeys' t).mp ht with h | h
                  · exact Or.inl ⟨t, h, hmt⟩
                  · subst h
                    refine Or.inr ?_
                    rw [← hmt, hk_eq]
                · rintro (⟨t, ht, hmt⟩ | hm)
                  · exact ⟨t, (hkeys' t).mpr (Or.inl ht), hmt⟩
                  · refine ⟨a :: nk', (hkeys' _).mpr (Or.inr rfl), ?_⟩
                    rw [hm, hk_eq]
        | cons b op' =>
          have hvalop : ∀ x ∈ b :: op', x < 16 := by
            intro x hx
            exact hvalp x (by rw [hpn_eq]; simp [hx])
          have hwfX : Wf (Node.newWithNode op' c) :=
            wf_newWithNode op' c (fun x hx => hvalop x (by simp [hx])) hbvc hwc hnec
          have hkeysX := keys_newWithNode op' c
          have hb16 : b < 16 := hvalop b (by simp)
          have hsetlen : (emptyChildren.set b (Node.newWithNode op' c)).length = 16 := by
            rw [List.length_set]
            rfl
          have hblen : b < (emptyChildren.set b (Node.newWithNode op' c)).length := by
            rw [hsetlen]
            exact hb16
          have hwfset : ∀ cnode ∈ emptyChildren.set b (Node.newWithNode op' c), Wf cnode := by
            intro cnode hc
            rcases List.mem_or_eq_of_mem_set hc with h | h
            · rw [List.eq_of_mem_replicate h]
              exact Wf.empty
            · rw [h]
              exact hwfX
          have hkeysSet : ∀ t, t ∈ keysB (emptyChildren.set b (Node.newWithNode op' c)) none ↔
              ∃ u, u ∈ Node.keys c ∧ t = (b :: op') ++ u := by
            intro t
            rw [mem_keysB]
            constructor
            · rintro (⟨_, hfalse⟩ | ⟨j, rest, hj, ht, hrest⟩)
              · simp at hfalse
              · by_cases hjb : j = b
                · subst hjb
                  rw [getD_set_self _ _ _ (by rw [show emptyChildren.length = 16 from rfl]; exact hb16)] at hrest
                  rw [hkeysX] at hrest
                  obtain ⟨u, hu, hut⟩ := List.mem_map.mp hrest
                  refine ⟨u, hu, ?_⟩
                  rw [ht, ← hut]
                  simp
                · rw [getD_set_ne _ _ _ _ hjb, getD_emptyChildren, keys_empty] at hrest
                  simp at hrest
            · rintro ⟨u, hu, ht⟩
              refine Or.inr ⟨b, op' ++ u, by rw [hsetlen]; exact hb16, by rw [ht]; simp, ?_⟩
              rw [getD_set_self _ _ _ (by rw [show emptyChildren.length = 16 from rfl]; exact hb16)]
              rw [hkeysX]
              exact List.mem_map.mpr ⟨u, hu, rfl⟩
          have hincNew : ∀ t ∈ keysB (emptyChildren.set b (Node.newWithNode op' c)) none,
              Incomp nk t := by
            intro t ht
            obtain ⟨u, hu, htu⟩ := (hkeysSet t).mp ht
            subst htu
            have hmem : pn ++ u ∈ Node.keys (.extension pn c hsh) := by
              rw [keys_ext]
              exact List.mem_map.mpr ⟨u, hu, rfl⟩
            have h2 := hinc _ hmem
            rw [hk_eq, hpn_eq] at h2
            exact incomp_append common _ _ (by simpa [List.append_assoc] using h2)
          have hnklen : nk.length ≤ k.length := by
            rw [hk_eq]
            simp
          obtain ⟨cs', bv', heq, hlen', hwf', hkeys'⟩ := ih.1
            (emptyChildren.set b (Node.newWithNode op' c)) none none nk v
            (by omega) hsetlen hwfset (fun x hx => hval x (by rw [hk_eq]; simp [hx])) hincNew
          by_cases hcom : common = []
          · subst hcom
            simp only [List.nil_append] at hk_eq hpn_eq
            refine ⟨.branch cs' bv' none, ?_, Wf.branch _ _ _ hlen' hwf', ?_⟩
            · simp [Node.insertF, hMP, BranchNode.newWithNode, heq]
            · intro m
              rw [keys_branch, keys_ext]
              simp only [List.mem_map]
              constructor
              · intro hm
                rcases (hkeys' m).mp hm with h | h
                · obtain ⟨u, hu, hmu⟩ := (hkeysSet m).mp h
                  refine Or.inl ⟨u, hu, ?_⟩
                  rw [hmu, hpn_eq]
                · exact Or.inr (by rw [h, hk_eq])
              · rintro (⟨u, hu, hmu⟩ | hm)
                · refine (hkeys' m).mpr (Or.inl ((hkeysSet m).mpr ⟨u, hu, ?_⟩))
                  rw [← hmu, hpn_eq]
                · exact (hkeys' m).mpr (Or.inr (by rw [hm, hk_eq]))
          · refine ⟨.extension common (.branch cs' bv' none) none, ?_, ?_, ?_⟩
            · simp [Node.insertF, hMP, BranchNode.newWithNode, heq, isEmpty_false hcom]
            · refine Wf.extension _ _ _ hcom (fun x hx => hval x (by rw [hk_eq]; simp [hx]))
                (by simp [isBranchOrValue]) (Wf.branch _ _ _ hlen' hwf') ?_
              rw [keys_branch]
              exact List.ne_nil_of_mem ((hkeys' _).mpr (Or.inr rfl))
            · intro m
              rw [keys_ext, keys_ext, keys_branch]
              simp only [List.mem_map]
              constructor
              · rintro ⟨t, ht, hmt⟩
                rcases (hkeys' t).mp ht with h | h
                · obtain ⟨u, hu, htu⟩ := (hkeysSet t).mp h
                  refine Or.inl ⟨u, hu, ?_⟩
                  rw [← hmt, htu, hpn_eq]
                  simp
                · subst h
                  refine Or.inr ?_
                  rw [← hmt, hk_eq]
              · rintro (⟨u, hu, hmu⟩ | hm)
                · refine ⟨(b :: op') ++ u, (hkeys' _).mpr (Or.inl ((hkeysSet _).mpr ⟨u, hu, rfl⟩)), ?_⟩
                  rw [← hmu, hpn_eq]
                  simp
                · exact ⟨nk, (hkeys' _).mpr (Or.inr rfl), by rw [hm, hk_eq]⟩

lemma incomp_symm {a b : List Nat} (h : Incomp a b) : Incomp b a :=
  ⟨h.2, h.1⟩

lemma byte_decomp (x : Nat) : 16 * (x >>> 4) + (x &&& 15) = x := by
  have h15 : x &&& 15 = x % 16 := by
    have h := Nat.and_pow_two_sub_one_eq_mod x 4
    norm_num at h
    exact h
  rw [Nat.shiftRight_eq_div_pow, h15]
  norm_num
  omega

lemma bytesToNibbles_valid (k : List Nat) (h : ∀ x ∈ k, x < 256) :
    NibbleValid (bytesToNibbles k) := by
  intro x hx
  unfold bytesToNibbles at hx
  simp only [List.mem_flatMap] at hx
  obtain ⟨b, hb, hxb⟩ := hx
  have hb256 := h b hb
  have h15 : b &&& 15 = b % 16 := by
    have h2 := Nat.and_pow_two_sub_one_eq_mod b 4
    norm_num at h2
    exact h2
  have hshift : b >>> 4 = b / 16 := by
    rw [Nat.shiftRight_eq_div_pow]
  simp only [List.mem_cons, List.mem_singleton] at hxb
  rcases hxb with h1 | h1 | h1
  · rw [h1, hshift]
    omega
  · rw [h1, h15]
    omega
  · simp at h1

lemma bytesToNibbles_prefix_mp : ∀ (a b : List Nat),
    bytesToNibbles a <+: bytesToNibbles b → a <+: b
  | [], b, _ => ⟨b, rfl⟩
  | x :: a, [], h => by
    exfalso
    simp [bytesToNibbles] at h
  | x :: a, y :: b, h => by
    simp only [bytesToNibbles, List.flatMap_cons, List.cons_append, List.nil_append] at h
    rw [List.cons_prefix_cons] at h
    obtain ⟨h1, h⟩ := h
    rw [List.cons_prefix_cons] at h
    obtain ⟨h2, h⟩ := h
    have hxy : x = y := by
      have dx := byte_decomp x
      have dy := byte_decomp y
      omega
    subst hxy
    exact List.cons_prefix_cons.mpr ⟨rfl, bytesToNibbles_prefix_mp a b h⟩

/-- Building the trie by a sequence of MPT::insert calls with fresh,
prefix-incomparable keys succeeds and stores exactly those keys. -/
lemma insertAll_build : ∀ (l : List (List Nat × List Nat)) (t : MPT) (done : List (List Nat)),
    Wf t.root →
    (∀ m, m ∈ Node.keys t.root ↔ m ∈ done) →
    (∀ p ∈ l, NibbleValid (bytesToNibbles p.1)) →
    (∀ d ∈ done, ∀ p ∈ l, Incomp (bytesToNibbles p.1) d) →
    List.Pairwise (fun a b => Incomp a b) (l.map (fun p => bytesToNibbles p.1)) →
    ∃ t', MPT.insertAll t l = .ok t' ∧ Wf t'.root ∧
      (∀ m, m ∈ Node.keys t'.root ↔ m ∈ done ++ l.map (fun p => bytesToNibbles p.1))
  | [], t, done, hwf, hkeys, _, _, _ => ⟨t, rfl, hwf, by simpa using hkeys⟩
  | (k, v) :: l, t, done, hwf, hkeys, hvalid, hdone, hpw => by
    simp only [List.map_cons] at hpw
    obtain ⟨hpwhead, hpwtail⟩ := List.pairwise_cons.mp hpw
    obtain ⟨root', hins, hwf', hkeys'⟩ := (insert_fresh_main (2 * (bytesToNibbles k).length + 2)).2
      t.root (bytesToNibbles k) v (Nat.le_refl _) hwf (hvalid (k, v) (by simp))
      (by
        intro tk htk
        exact hdone tk ((hkeys tk).mp htk) (k, v) (by simp))
    have hins2 : t.insert k v = .ok ⟨root', t.db⟩ := by
      simp only [MPT.insert, Node.insert, hins, ebind_ok]
    obtain ⟨t', hrec, hwf2, hkeys2⟩ := insertAll_build l ⟨root', t.db⟩
      (done ++ [bytesToNibbles k])
      hwf'
      (by
        intro m
        rw [hkeys' m, hkeys m]
        simp)
      (fun p hp => hvalid p (by simp [hp]))
      (by
        intro d hd p hp
        rcases List.mem_append.mp hd with h | h
        · exact hdone d h p (by simp [hp])
        · simp only [List.mem_singleton] at h
          subst h
          exact incomp_symm (hpwhead _ (List.mem_map.mpr ⟨p, hp, rfl⟩)))
      hpwtail
    refine ⟨t', ?_, hwf2, ?_⟩
    · unfold MPT.insertAll
      rw [hins2, ebind_ok]
      exact hrec
    · intro m
      rw [hkeys2 m]
      simp

/-- C8 (amended): over an MPT built from pairwise prefix-incomparable byte
keys (as the intended keys, RLP-encoded indices, are), inserting a key equal
to one already present is a fatal error, while inserting any key that is
prefix-incomparable with (in particular distinct from) all previously
inserted keys completes without error.  For merely pairwise-distinct keys the
success half fails; see the counterexample. -/
theorem mpt_insert_prefix_free_spec (inserts : List (List Nat × List Nat))
    (hbytes : ∀ p ∈ inserts, ∀ x ∈ p.1, x < 256)
    (hpf : List.Pairwise (fun a b => ¬ a <+: b ∧ ¬ b <+: a) (inserts.map Prod.fst)) :
    ∃ t, MPT.insertAll MPT.new inserts = .ok t ∧
      (∀ k v, k ∈ inserts.map Prod.fst → ∃ e, t.insert k v = .error e) ∧
      (∀ k v, (∀ x ∈ k, x < 256) →
        (∀ k' ∈ inserts.map Prod.fst, ¬ k <+: k' ∧ ¬ k' <+: k) →
        ∃ t', t.insert k v = .ok t') := by
  have hpw : List.Pairwise (fun a b => Incomp a b)
      (inserts.map (fun p => bytesToNibbles p.1)) := by
    have h1 : inserts.map (fun p => bytesToNibbles p.1) =
        (inserts.map Prod.fst).map bytesToNibbles := by
      rw [List.map_map]
      rfl
    rw [h1, List.pairwise_map]
    refine hpf.imp ?_
    intro a b hab
    exact ⟨fun hpre => hab.1 (bytesToNibbles_prefix_mp a b hpre),
           fun hpre => hab.2 (bytesToNibbles_prefix_mp b a hpre)⟩
  obtain ⟨t, heq, hwf, hkeys⟩ := insertAll_build inserts MPT.new []
    Wf.empty
    (by
      intro m
      show m ∈ Node.keys Node.empty ↔ m ∈ ([] : List (List Nat))
      rw [keys_empty])
    (fun p hp => bytesToNibbles_valid p.1 (hbytes p hp))
    (by
      intro d hd
      simp at hd)
    hpw
  refine ⟨t, heq, ?_, ?_⟩
  · intro k v hk
    have hmem : bytesToNibbles k ∈ Node.keys t.root := by
      rw [hkeys]
      simp only [List.nil_append]
      obtain ⟨p, hp, hpk⟩ := List.mem_map.mp hk
      exact List.mem_map.mpr ⟨p, hp, by rw [hpk]⟩
    obtain ⟨e, he⟩ := (insert_dup_main (2 * (bytesToNibbles k).length + 2)).2 t.root
      (bytesToNibbles k) v (Nat.le_refl _) hmem
    refine ⟨e, ?_⟩
    simp only [MPT.insert, Node.insert, he, ebind_error]
  · intro k v hk256 hkinc
    have hinc : ∀ tk ∈ Node.keys t.root, Incomp (bytesToNibbles k) tk := by
      intro tk htk
      rw [hkeys] at htk
      simp only [List.nil_append] at htk
      obtain ⟨p, hp, hpk⟩ := List.mem_map.mp htk
      have h2 := hkinc p.1 (List.mem_map.mpr ⟨p, hp, rfl⟩)
      rw [← hpk]
      exact ⟨fun hpre => h2.1 (bytesToNibbles_prefix_mp _ _ hpre),
             fun hpre => h2.2 (bytesToNibbles_prefix_mp _ _ hpre)⟩
    obtain ⟨root', hins, hwfr, hkeysr⟩ := (insert_fresh_main (2 * (bytesToNibbles k).length + 2)).2
      t.root (bytesToNibbles k) v (Nat.le_refl _) hwf (bytesToNibbles_valid k hk256) hinc
    exact ⟨⟨root', t.db⟩, by simp only [MPT.insert, Node.insert, hins, ebind_ok]⟩

/-- C8 counterexample: the byte keys [2], [3, 69] and [2, 103] are pairwise
distinct, yet the third insert panics with the value-node error: the second
insert splits the root extension so that the value for key [2] sits directly
in a branch slot, and [2, 103] then walks into that value node.  This refutes
the claim that inserting any key distinct from all previously inserted keys
completes without error. -/
theorem mpt_insert_distinct_keys_counterexample :
    (([2] : List Nat) ≠ [3, 69] ∧ ([2] : List Nat) ≠ [2, 103] ∧
      ([3, 69] : List Nat) ≠ [2, 103]) ∧
    MPT.insertAll MPT.new [([2], [10]), ([3, 69], [11]), ([2, 103], [12])] =
      .error msgValueInsert :=
  ⟨⟨by decide, by decide, by decide⟩, rfl⟩

/-- C8 witness: two prefix-incomparable keys build a trie on which the
amended claim's conclusions hold. -/
theorem mpt_insert_prefix_free_spec_witness :
    ∃ t, MPT.insertAll MPT.new [([2], [10]), ([3, 69], [11])] = .ok t ∧
      (∀ k v, k ∈ ([([2], [10]), ([3, 69], [11])] : List (List Nat × List Nat)).map Prod.fst →
        ∃ e, t.insert k v = .error e) ∧
      (∀ k v, (∀ x ∈ k, x < 256) →
        (∀ k' ∈ ([([2], [10]), ([3, 69], [11])] : List (List Nat × List Nat)).map Prod.fst,
          ¬ k <+: k' ∧ ¬ k' <+: k) →
        ∃ t', t.insert k v = .ok t') :=
  mpt_insert_prefix_free_spec [([2], [10]), ([3, 69], [11])] (by decide) (by decide)

end RsNode
